import Mathlib

/-
Verification development for the partitioned-dataset discovery and filtering
layer (partition schemes, partition-scheme discovery, file sources and the
filesystem data source). The definitions below are a shallow embedding of the
corresponding C++ functions; theorems settle the specification's claims
against them.
-/

namespace ArrowDS

/-! ## Data types and scalar values

The schema/type collaborator is external to this layer; only the handful of
types the partition code touches are modelled. -/

inductive DType where
  | int8
  | int16
  | int32
  | utf8
deriving DecidableEq

/-- A parsed scalar value: an integral value tagged with its declared type, or
a utf8 string. -/
inductive PScalar where
  | int (n : Nat) (t : DType)
  | str (s : String)
deriving DecidableEq

/-! ## Expressions

The expression module is an external collaborator; conjunction in it is a
binary node and `and_` of a vector folds pairwise. -/

inductive Expr where
  | boolLit (b : Bool)
  | eqE (fieldName : String) (value : PScalar)
  | andE (l r : Expr)
deriving DecidableEq

/-- The trivial true predicate, `scalar(true)`. -/
def trivialTrue : Expr := .boolLit true

/-- `expr->Equals(true)`: structural comparison against the boolean scalar
`true`; only the literal `true` expression passes. -/
def isTrivialTrue : Expr → Bool
  | .boolLit true => true
  | _ => false

/-- Modelled from the spec: `and(ExpressionVector)` of the external expression
module — the conjunction of a vector of expressions, folded pairwise, with the
empty conjunction equal to the trivial true predicate. -/
def and_ : List Expr → Expr
  | [] => trivialTrue
  | e :: rest => rest.foldl Expr.andE e

/-! ## Schema -/

structure Field where
  name : String
  type : DType
deriving DecidableEq

structure Schema where
  fields : List Field
deriving DecidableEq

/-- `Schema::GetFieldByName`: the first field carrying the given name, if
any. -/
def Schema.getFieldByName (s : Schema) (n : String) : Option Field :=
  s.fields.find? (fun f => f.name == n)

def Schema.numFields (s : Schema) : Nat := s.fields.length

/-- Status kinds surfaced by this layer (taxonomy of the error design). -/
inductive AStatus where
  | typeError (msg : String)
deriving DecidableEq

/-! ## Scalar parsing (external collaborator) -/

/-- Membership in the character set `"0123456789"` used by
`find_first_not_of`. -/
def isDecimalDigit (c : Char) : Bool :=
  ['0', '1', '2', '3', '4', '5', '6', '7', '8', '9'].contains c

/-- Numeric value of a digit string. -/
def digitsVal (cs : List Char) : Nat :=
  cs.foldl (fun n c => 10 * n + (c.toNat - '0'.toNat)) 0

/-- Modelled from the spec: `Scalar::Parse(type, repr)` of the external
schema/type module — parse a string into a typed scalar of the field's
declared type, failing with a type error on malformed input. Strings parse as
themselves for utf8; integral types accept a nonempty run of decimal
digits. -/
def scalarParse (t : DType) (r : String) : Except AStatus PScalar :=
  match t with
  | .utf8 => .ok (.str r)
  | t =>
    if !r.data.isEmpty && r.data.all isDecimalDigit then
      .ok (.int (digitsVal r.data) t)
    else
      .error (.typeError ("error parsing scalar of integral type from " ++ r))

/-! ## Path splitting (filesystem collaborator) -/

/-- Helper for `SplitAbstractPath`: split on the slash separator, the current
segment accumulated in reverse. -/
def splitSegsAux : List Char → List Char → List String
  | [], cur => [⟨cur.reverse⟩]
  | c :: cs, cur =>
    if c = '/' then ⟨cur.reverse⟩ :: splitSegsAux cs []
    else splitSegsAux cs (c :: cur)

/-- Modelled from the spec: `SplitAbstractPath(path)` of the external
filesystem module — an ordered sequence of slash-delimited segments, one
leading slash stripped, the empty path yielding no segment. -/
def SplitAbstractPath (path : String) : List String :=
  match path.data with
  | [] => []
  | c :: cs => if c = '/' then (if cs.isEmpty then [] else splitSegsAux cs [])
               else splitSegsAux (c :: cs) []

/-! ## Keys and their conversion (PartitionKeysScheme) -/

/-- An unconverted equality expression: a field name and the representation of
a scalar value. -/
structure Key where
  name : String
  value : String
deriving DecidableEq

/-- `PartitionKeysScheme::ConvertKey`: look the key's name up in the schema —
absent fields degrade to the trivial true predicate; otherwise parse the value
as a scalar of the field's declared type and emit the equality predicate,
propagating a parse failure. -/
def ConvertKey (key : Key) (schema : Schema) : Except AStatus Expr :=
  match schema.getFieldByName key.name with
  | none => .ok (.boolLit true)
  | some f =>
    match scalarParse f.type key.value with
    | .ok converted => .ok (.eqE f.name converted)
    | .error e => .error e

/-- `PartitionKeysScheme::Parse(segment, i)`: extract a key via the
scheme-specific `ParseKey` and convert it; no key yields the trivial true
predicate. -/
def PartitionKeysScheme.Parse (parseKey : String → Nat → Option Key)
    (schema : Schema) (segment : String) (i : Nat) : Except AStatus Expr :=
  match parseKey segment i with
  | some key => ConvertKey key schema
  | none => .ok (.boolLit true)

/-! ## The concrete key extractors -/

/-- `SchemaPartitionScheme::ParseKey`: positions at or beyond the schema's
field count yield no key; otherwise the key pairs the i-th field's name with
the whole segment. -/
def SchemaPartitionScheme.ParseKey (schema : Schema) (segment : String)
    (i : Nat) : Option Key :=
  if h : schema.numFields ≤ i then none
  else some ⟨(schema.fields.get ⟨i, Nat.lt_of_not_le h⟩).name, segment⟩

/-- Split a character list at the first `'='`: the part before and the part
after, or none when no `'='` occurs (`find_first_of('=') == npos`). -/
def splitFirstEq : List Char → Option (List Char × List Char)
  | [] => none
  | c :: cs =>
    if c = '=' then some ([], cs)
    else (splitFirstEq cs).map (fun p => (c :: p.1, p.2))

/-- `HivePartitionScheme::ParseKey(segment)`: split the segment at the first
`'='` into name and value; no `'='` means no key. -/
def HiveParseKey (segment : String) : Option Key :=
  match splitFirstEq segment.data with
  | none => none
  | some (n, v) => some ⟨⟨n⟩, ⟨v⟩⟩

/-- `HivePartitionScheme::ParseKey(segment, i)`: delegates to the static
segment-only overload, ignoring the position. -/
def HiveParseKeyAt (segment : String) (_i : Nat) : Option Key :=
  HiveParseKey segment

/-! ## PartitionScheme::Parse over a full path -/

/-- The virtual interface of a partition scheme: its per-segment `Parse`. -/
structure PartitionSchemeIface where
  parseSegment : String → Nat → Except AStatus Expr

/-- The loop body of `PartitionScheme::Parse(path)`: walk the segments left to
right with increasing position, propagate the first per-segment error, skip
expressions equal to the trivial true predicate, and accumulate the rest. -/
def parseLoop (S : PartitionSchemeIface) :
    List String → Nat → List Expr → Except AStatus (List Expr)
  | [], _, acc => .ok acc
  | seg :: rest, i, acc =>
    match S.parseSegment seg i with
    | .error e => .error e
    | .ok expr =>
      if isTrivialTrue expr then parseLoop S rest (i + 1) acc
      else parseLoop S rest (i + 1) (acc ++ [expr])

/-- `PartitionScheme::Parse(path)`: split the path, run the loop from position
0, and return the conjunction of the accumulated expressions. -/
def PartitionScheme.ParsePath (S : PartitionSchemeIface) (path : String) :
    Except AStatus Expr :=
  (parseLoop S (SplitAbstractPath path) 0 []).map and_

/-- Pair each list element with its position, starting at `i`. -/
def withPositions : Nat → List String → List (Nat × String)
  | _, [] => []
  | i, s :: rest => (i, s) :: withPositions (i + 1) rest

/-- Declarative form of full-path parsing: run every per-segment parse at its
position, left to right, collecting every result (the first error, if any,
propagates). -/
def parseAllSegments (S : PartitionSchemeIface) :
    List String → Nat → Except AStatus (List Expr)
  | [], _ => .ok []
  | seg :: rest, i =>
    match S.parseSegment seg i with
    | .error e => .error e
    | .ok e =>
      match parseAllSegments S rest (i + 1) with
      | .error err => .error err
      | .ok es => .ok (e :: es)

/-- The `SchemaPartitionScheme` packaged behind the virtual interface. -/
def schemaIface (sch : Schema) : PartitionSchemeIface :=
  ⟨fun seg i => PartitionKeysScheme.Parse (SchemaPartitionScheme.ParseKey sch) sch seg i⟩

/-- The `HivePartitionScheme` packaged behind the virtual interface. -/
def hiveIface (sch : Schema) : PartitionSchemeIface :=
  ⟨fun seg i => PartitionKeysScheme.Parse HiveParseKeyAt sch seg i⟩

/-! ## C1: the full-path parse is the filtered conjunction of the per-segment
parses -/

lemma parseLoop_eq (S : PartitionSchemeIface) (segs : List String) :
    ∀ (i : Nat) (acc : List Expr),
      parseLoop S segs i acc =
        (parseAllSegments S segs i).map
          (fun es => acc ++ es.filter (fun e => !isTrivialTrue e)) := by
  induction segs with
  | nil =>
    intro i acc
    simp [parseLoop, parseAllSegments, Except.map]
  | cons seg rest ih =>
    intro i acc
    simp only [parseLoop, parseAllSegments]
    cases h : S.parseSegment seg i with
    | error e => simp [Except.map]
    | ok expr =>
      cases h2 : parseAllSegments S rest (i + 1) with
      | error err =>
        rcases hb : isTrivialTrue expr <;> simp [hb, ih, h2, Except.map]
      | ok es =>
        rcases hb : isTrivialTrue expr <;>
          simp [hb, ih, h2, Except.map, List.filter_cons]

/-- C1: for every partition scheme and path, `PartitionScheme::Parse(path)`
runs the per-segment `Parse` on the split segments with positions 0, 1, 2, …
left to right, drops every segment whose result equals the trivial true
predicate, and returns the conjunction of the remaining expressions; the
empty conjunction equals the trivial true predicate. -/
theorem parsePath_is_filtered_conjunction (S : PartitionSchemeIface)
    (path : String) :
    PartitionScheme.ParsePath S path =
      (parseAllSegments S (SplitAbstractPath path) 0).map
        (fun es => and_ (es.filter (fun e => !isTrivialTrue e)))
    ∧ and_ [] = trivialTrue := by
  refine ⟨?_, rfl⟩
  unfold PartitionScheme.ParsePath
  rw [parseLoop_eq]
  cases parseAllSegments S (SplitAbstractPath path) 0 <;> simp [Except.map]

/-! ## C5: Hive key extraction splits at the first equals sign -/

lemma splitFirstEq_eq_none {l : List Char} :
    splitFirstEq l = none ↔ '=' ∉ l := by
  induction l with
  | nil => simp [splitFirstEq]
  | cons c cs ih =>
    by_cases hc : c = '='
    · subst hc; simp [splitFirstEq]
    · simp [splitFirstEq, hc, ih, Ne.symm hc]

lemma splitFirstEq_eq_some {l n v : List Char}
    (h : splitFirstEq l = some (n, v)) :
    l = n ++ '=' :: v ∧ '=' ∉ n := by
  induction l generalizing n v with
  | nil => simp [splitFirstEq] at h
  | cons c cs ih =>
    by_cases hc : c = '='
    · subst hc
      simp [splitFirstEq] at h
      obtain ⟨hn, hv⟩ := h
      subst hn
      subst hv
      simp
    · simp only [splitFirstEq, if_neg hc, Option.map_eq_some'] at h
      obtain ⟨⟨n', v'⟩, hp, heq⟩ := h
      obtain ⟨hn, hv⟩ : c :: n' = n ∧ v' = v := by simpa using heq
      subst hv
      obtain ⟨hl, hmem⟩ := ih hp
      subst hl
      rw [← hn]
      refine ⟨rfl, ?_⟩
      simp only [List.mem_cons, not_or]
      exact ⟨Ne.symm hc, hmem⟩

/-- C5: `HivePartitionScheme::ParseKey(segment)` yields no key when the
segment has no `'='`; otherwise its key's name is the part before the first
`'='` and its value everything after it; the position argument never affects
the result. -/
theorem hiveParseKey_spec (s : String) :
    (∀ i, HiveParseKeyAt s i = HiveParseKey s) ∧
    (HiveParseKey s = none ↔ '=' ∉ s.data) ∧
    (∀ k, HiveParseKey s = some k →
      s.data = k.name.data ++ '=' :: k.value.data ∧ '=' ∉ k.name.data) := by
  refine ⟨fun _ => rfl, ?_, ?_⟩
  · unfold HiveParseKey
    cases h : splitFirstEq s.data with
    | none => simp [splitFirstEq_eq_none.mp h]
    | some p =>
      obtain ⟨n, v⟩ := p
      obtain ⟨hl, _⟩ := splitFirstEq_eq_some h
      simp [hl]
  · intro k hk
    unfold HiveParseKey at hk
    cases h : splitFirstEq s.data with
    | none => rw [h] at hk; exact absurd hk (by simp)
    | some p =>
      obtain ⟨n, v⟩ := p
      rw [h] at hk
      simp only [Option.some.injEq] at hk
      subst hk
      exact splitFirstEq_eq_some h

/-- Witness for C5 at the concrete segment `"a=b"`. -/
theorem hiveParseKey_spec_witness :
    ("a=b" : String).data =
      ("a" : String).data ++ '=' :: ("b" : String).data ∧
    '=' ∉ ("a" : String).data :=
  (hiveParseKey_spec "a=b").2.2 ⟨"a", "b"⟩ (by decide)

/-! ## C3: ConvertKey — absent field is best-effort true, present field is an
equality predicate, unparseable value fails -/

/-- C3: `PartitionKeysScheme::ConvertKey(key, schema)` returns the trivial
true predicate when no schema field carries the key's name; when such a field
exists and the key's value parses as a scalar of the field's declared type it
returns the equality predicate `field == scalar`; when the field exists but
the value does not parse as that type it fails with that error. -/
theorem convertKey_spec (k : Key) (s : Schema) :
    (s.getFieldByName k.name = none → ConvertKey k s = .ok trivialTrue) ∧
    (∀ f, s.getFieldByName k.name = some f →
      (∀ v, scalarParse f.type k.value = .ok v →
        ConvertKey k s = .ok (.eqE f.name v)) ∧
      (∀ e, scalarParse f.type k.value = .error e →
        ConvertKey k s = .error e)) := by
  refine ⟨?_, ?_⟩
  · intro h
    simp [ConvertKey, h, trivialTrue]
  · intro f hf
    refine ⟨?_, ?_⟩
    · intro v hv
      simp [ConvertKey, hf, hv]
    · intro e he
      simp [ConvertKey, hf, he]

/-- Witness for C3: a schema field of integral type whose key value is not a
digit string makes `ConvertKey` fail with the scalar-parse error. -/
theorem convertKey_spec_witness :
    ConvertKey ⟨"year", "abc"⟩ ⟨[⟨"year", .int16⟩]⟩ =
      .error (.typeError "error parsing scalar of integral type from abc") :=
  ((convertKey_spec ⟨"year", "abc"⟩ ⟨[⟨"year", .int16⟩]⟩).2
    ⟨"year", .int16⟩ (by decide)).2
    (.typeError "error parsing scalar of integral type from abc") rfl

/-! ## C6: positional key extraction and short paths -/

/-- `Result::ok()`: whether a fallible operation succeeded. -/
def isOkE {α : Type} : Except AStatus α → Bool
  | .ok _ => true
  | .error _ => false

lemma isOkE_map {α β : Type} (f : α → β) (x : Except AStatus α) :
    isOkE (x.map f) = isOkE x := by
  cases x <;> rfl

lemma parseLoop_isOk (S : PartitionSchemeIface) (segs : List String) :
    ∀ (i : Nat) (acc : List Expr),
      (∀ p ∈ withPositions i segs, isOkE (S.parseSegment p.2 p.1) = true) →
      isOkE (parseLoop S segs i acc) = true := by
  induction segs with
  | nil => intro i acc _; rfl
  | cons seg rest ih =>
    intro i acc hall
    have h0 : isOkE (S.parseSegment seg i) = true :=
      hall (i, seg) (by simp [withPositions])
    have hrest : ∀ p ∈ withPositions (i + 1) rest,
        isOkE (S.parseSegment p.2 p.1) = true :=
      fun p hp => hall p (by simp [withPositions, hp])
    cases h : S.parseSegment seg i with
    | error e => rw [h] at h0; exact absurd h0 (by simp [isOkE])
    | ok expr =>
      simp only [parseLoop, h]
      rcases hb : isTrivialTrue expr <;> simp [hb] <;> exact ih _ _ hrest

/-- The demonstration schema `{year:int16, month:int8}` used by the spec's
positional examples. -/
def demoYM : Schema := ⟨[⟨"year", .int16⟩, ⟨"month", .int8⟩]⟩

/-- C6 counterexample: over `{year:int16, month:int8}`, the path `"abc"` has
fewer segments (one) than the schema has fields (two), yet the full-path parse
fails — its single segment does not parse as the first field's integral type.
So a short path's parse can fail; shortness alone is what never causes
failure. -/
theorem schemaParse_short_path_failure :
    (SplitAbstractPath "abc").length < demoYM.numFields ∧
    PartitionScheme.ParsePath (schemaIface demoYM) "abc" =
      .error (.typeError "error parsing scalar of integral type from abc") :=
  ⟨by decide, rfl⟩

/-- C6 (amended): positional `ParseKey(s, i)` returns no key when `i` is at or
beyond the schema's field count and `{name of field i, s}` otherwise; and a
path whose present segments all parse (in particular one with fewer segments
than fields, the trailing fields simply unconstrained) parses successfully —
missing trailing segments never cause failure. -/
theorem schemaParseKey_spec (sch : Schema) (segment : String) (i : Nat) :
    (sch.numFields ≤ i → SchemaPartitionScheme.ParseKey sch segment i = none) ∧
    (∀ h : i < sch.numFields,
      SchemaPartitionScheme.ParseKey sch segment i =
        some ⟨(sch.fields.get ⟨i, h⟩).name, segment⟩) ∧
    (∀ path,
      (∀ p ∈ withPositions 0 (SplitAbstractPath path),
        isOkE ((schemaIface sch).parseSegment p.2 p.1) = true) →
      isOkE (PartitionScheme.ParsePath (schemaIface sch) path) = true) := by
  refine ⟨?_, ?_, ?_⟩
  · intro h
    simp [SchemaPartitionScheme.ParseKey, h]
  · intro h
    simp [SchemaPartitionScheme.ParseKey, Nat.not_le.mpr h]
  · intro path hall
    unfold PartitionScheme.ParsePath
    rw [isOkE_map]
    exact parseLoop_isOk (schemaIface sch) _ 0 [] hall

/-- Witness for C6 (amended) at the spec's own example: schema
`{year:int16, month:int8}` with the one-segment path `"2009"`. -/
theorem schemaParseKey_spec_witness :
    isOkE (PartitionScheme.ParsePath (schemaIface demoYM) "2009") = true :=
  (schemaParseKey_spec demoYM "" 0).2.2 "2009" (by decide)

/-! ## C4: positional discovery's Finish — required-field check and
projection -/

lemma getFieldByName_name {s : Schema} {n : String} {f : Field}
    (h : s.getFieldByName n = some f) : f.name = n := by
  have := List.find?_some h
  simpa using this

/-- Modelled from the spec: `SchemaFromColumnNames` (a dataset-internal helper
whose definition is not among the provided sources) — the schema restricted
and reordered to the given column names, names without a field skipped. -/
def SchemaFromColumnNames (s : Schema) (names : List String) : Schema :=
  ⟨names.filterMap (fun n => s.getFieldByName n)⟩

/-- The required-field check loop of `SchemaPartitionSchemeDiscovery::Finish`
(`GetFieldIndex(name) == -1` is lookup failure). -/
def checkFieldsPresent : List String → Schema → Except AStatus Unit
  | [], _ => .ok ()
  | n :: rest, s =>
    if (s.getFieldByName n).isSome then checkFieldsPresent rest s
    else .error (.typeError ("no field named " ++ n ++ " in schema"))

/-- `SchemaPartitionSchemeDiscovery::Finish`: TypeError when a required field
name is absent from the supplied schema, else a scheme over the schema
restricted to the required names; the resulting scheme's schema is modelled by
the schema itself. -/
def SchemaDiscoveryFinish (fieldNames : List String) (schema : Schema) :
    Except AStatus Schema :=
  match checkFieldsPresent fieldNames schema with
  | .error e => .error e
  | .ok _ => .ok (SchemaFromColumnNames schema fieldNames)

lemma checkFieldsPresent_ok {F : List String} {s : Schema}
    (h : ∀ n ∈ F, (s.getFieldByName n).isSome = true) :
    checkFieldsPresent F s = .ok () := by
  induction F with
  | nil => rfl
  | cons n rest ih =>
    simp only [checkFieldsPresent]
    rw [if_pos (h n (by simp))]
    exact ih (fun m hm => h m (by simp [hm]))

lemma checkFieldsPresent_err {F : List String} {s : Schema}
    (h : ∃ n ∈ F, s.getFieldByName n = none) :
    ∃ msg, checkFieldsPresent F s = .error (.typeError msg) := by
  induction F with
  | nil => simp at h
  | cons n rest ih =>
    simp only [checkFieldsPresent]
    by_cases hn : (s.getFieldByName n).isSome = true
    · rw [if_pos hn]
      apply ih
      obtain ⟨m, hm, hnone⟩ := h
      rcases List.mem_cons.mp hm with rfl | hmr
      · rw [hnone] at hn; simp at hn
      · exact ⟨m, hmr, hnone⟩
    · rw [if_neg hn]
      exact ⟨_, rfl⟩

lemma schemaFromColumnNames_names {F : List String} {s : Schema}
    (h : ∀ n ∈ F, (s.getFieldByName n).isSome = true) :
    (SchemaFromColumnNames s F).fields.map Field.name = F := by
  induction F with
  | nil => rfl
  | cons n rest ih =>
    have hn := h n (by simp)
    obtain ⟨f, hf⟩ := Option.isSome_iff_exists.mp hn
    simp only [SchemaFromColumnNames, List.filterMap_cons, hf, List.map_cons]
    rw [getFieldByName_name hf]
    have := ih (fun m hm => h m (by simp [hm]))
    simp only [SchemaFromColumnNames] at this
    rw [this]

lemma schemaFromColumnNames_mem {F : List String} {s : Schema} {f : Field}
    (hmem : f ∈ (SchemaFromColumnNames s F).fields) :
    s.getFieldByName f.name = some f := by
  simp only [SchemaFromColumnNames, List.mem_filterMap] at hmem
  obtain ⟨n, _, hf⟩ := hmem
  rw [getFieldByName_name hf]
  exact hf

/-- C4: `Finish` fails with a TypeError when some required field name has no
field in the supplied schema; otherwise it succeeds and the resulting scheme's
schema holds exactly the fields named in the required list, in that order —
every other field of the input schema is excluded. -/
theorem schemaDiscoveryFinish_spec (F : List String) (s : Schema) :
    ((∀ n ∈ F, (s.getFieldByName n).isSome = true) →
      SchemaDiscoveryFinish F s = .ok (SchemaFromColumnNames s F) ∧
      (SchemaFromColumnNames s F).fields.map Field.name = F ∧
      ∀ f ∈ (SchemaFromColumnNames s F).fields,
        s.getFieldByName f.name = some f) ∧
    ((∃ n ∈ F, s.getFieldByName n = none) →
      ∃ msg, SchemaDiscoveryFinish F s = .error (.typeError msg)) := by
  constructor
  · intro h
    refine ⟨?_, schemaFromColumnNames_names h,
      fun f hf => schemaFromColumnNames_mem hf⟩
    simp [SchemaDiscoveryFinish, checkFieldsPresent_ok h]
  · intro h
    obtain ⟨msg, hmsg⟩ := checkFieldsPresent_err h
    exact ⟨msg, by simp [SchemaDiscoveryFinish, hmsg]⟩

/-- Witness for C4: required name `"b"` against a schema with an extra field
`"a"` — Finish succeeds and the extra field is excluded. -/
theorem schemaDiscoveryFinish_spec_witness :
    SchemaDiscoveryFinish ["b"] ⟨[⟨"a", .int32⟩, ⟨"b", .utf8⟩]⟩ =
      .ok (SchemaFromColumnNames ⟨[⟨"a", .int32⟩, ⟨"b", .utf8⟩]⟩ ["b"]) ∧
    (SchemaFromColumnNames ⟨[⟨"a", .int32⟩, ⟨"b", .utf8⟩]⟩ ["b"]).fields.map
      Field.name = ["b"] ∧
    ∀ f ∈ (SchemaFromColumnNames ⟨[⟨"a", .int32⟩, ⟨"b", .utf8⟩]⟩ ["b"]).fields,
      Schema.getFieldByName ⟨[⟨"a", .int32⟩, ⟨"b", .utf8⟩]⟩ f.name = some f :=
  (schemaDiscoveryFinish_spec ["b"] ⟨[⟨"a", .int32⟩, ⟨"b", .utf8⟩]⟩).1
    (by decide)

/-! ## Discovery: accumulation map and schema inference

`Inspect` accumulates values per key in a `std::map<std::string,
std::vector<std::string>>`; the map iterates its keys in ascending
lexicographic order, modelled here as a sorted association list. -/

/-- Lexicographic comparison of character lists (`std::string::operator<`). -/
def strLtB : List Char → List Char → Bool
  | [], [] => false
  | [], _ :: _ => true
  | _ :: _, [] => false
  | a :: as, b :: bs => if a = b then strLtB as bs else decide (a < b)

/-- Lexicographic comparison of strings, the key order of `std::map`. -/
def strLt (a b : String) : Bool := strLtB a.data b.data

lemma strLtB_total :
    ∀ a b : List Char, strLtB a b = true ∨ a = b ∨ strLtB b a = true := by
  intro a
  induction a with
  | nil =>
    intro b
    cases b with
    | nil => exact .inr (.inl rfl)
    | cons c cs => exact .inl rfl
  | cons c cs ih =>
    intro b
    cases b with
    | nil => exact .inr (.inr rfl)
    | cons d ds =>
      by_cases hcd : c = d
      · subst hcd
        rcases ih ds with h | h | h
        · left; simp [strLtB, h]
        · right; left; rw [h]
        · right; right; simp [strLtB, h]
      · rcases lt_trichotomy c d with h | h | h
        · left; simp [strLtB, hcd, h]
        · exact absurd h hcd
        · right; right; simp [strLtB, Ne.symm hcd, h]

lemma strLt_total (a b : String) :
    strLt a b = true ∨ a = b ∨ strLt b a = true := by
  rcases strLtB_total a.data b.data with h | h | h
  · exact .inl h
  · right; left
    cases a; cases b
    exact congrArg String.mk h
  · exact .inr (.inr h)

/-- Models `name_to_values[name].push_back(value)` on the `std::map`: keys
kept in ascending lexicographic order, the value appended at its key. -/
def mapAppend : List (String × List String) → String → String →
    List (String × List String)
  | [], k, v => [(k, [v])]
  | (k', vs) :: rest, k, v =>
    if strLt k k' then (k, [v]) :: (k', vs) :: rest
    else if k = k' then (k', vs ++ [v]) :: rest
    else (k', vs) :: mapAppend rest k v

/-- The association list's keys are in strictly ascending lexicographic
order — the `std::map` invariant. -/
def SortedKeys (m : List (String × List String)) : Prop :=
  List.Chain' (fun p q => strLt p.1 q.1 = true) m

lemma mapAppend_sorted {m : List (String × List String)} {k v : String}
    (h : SortedKeys m) :
    SortedKeys (mapAppend m k v) ∧
      ∀ z ∈ (mapAppend m k v).head?, z.1 = k ∨ ∃ w ∈ m.head?, z.1 = w.1 := by
  induction m with
  | nil =>
    refine ⟨by simp [mapAppend, SortedKeys], ?_⟩
    intro z hz
    simp [mapAppend] at hz
    left
    rw [← hz]
  | cons p rest ih =>
    obtain ⟨k', vs⟩ := p
    rw [SortedKeys, List.chain'_cons'] at h
    obtain ⟨hhead, htail⟩ := h
    obtain ⟨ihs, ihh⟩ := ih htail
    by_cases h1 : strLt k k' = true
    · simp only [mapAppend, if_pos h1]
      refine ⟨?_, ?_⟩
      · rw [SortedKeys, List.chain'_cons]
        exact ⟨h1, List.chain'_cons'.mpr ⟨hhead, htail⟩⟩
      · intro z hz
        simp at hz
        left
        rw [← hz]
    · by_cases h2 : k = k'
      · simp only [mapAppend, if_neg h1, if_pos h2]
        refine ⟨?_, ?_⟩
        · rw [SortedKeys, List.chain'_cons']
          exact ⟨fun b hb => hhead b hb, htail⟩
        · intro z hz
          simp at hz
          right
          exact ⟨(k', vs), by simp, by rw [← hz]⟩
      · simp only [mapAppend, if_neg h1, if_neg h2]
        refine ⟨?_, ?_⟩
        · rw [SortedKeys, List.chain'_cons']
          refine ⟨?_, ihs⟩
          intro b hb
          rcases ihh b hb with hbk | ⟨w, hw, hbw⟩
          · rcases strLt_total k k' with hkk | hkk | hkk
            · exact absurd hkk h1
            · exact absurd hkk h2
            · rw [hbk]; exact hkk
          · rw [hbw]; exact hhead w hw
        · intro z hz
          simp at hz
          right
          exact ⟨(k', vs), by simp, by rw [← hz]⟩

/-- `AllIntegral`: every value representation consists solely of characters
from the set `"0123456789"` (`find_first_not_of` over the whole string). -/
def AllIntegral (reprs : List String) : Bool :=
  reprs.all (fun r => r.data.all isDecimalDigit)

/-- `InferSchema(name_to_values)`: one field per key in map order; digits-only
values infer int32, anything else utf8. -/
def InferSchema (m : List (String × List String)) : Schema :=
  ⟨m.map (fun p => ⟨p.1, if AllIntegral p.2 then DType.int32 else DType.utf8⟩)⟩

/-- One segment of `HivePartitionSchemeDiscovery::Inspect`'s walk: segments
parsing to a key append its value at its name; others are ignored. -/
def hiveAccumSegment (m : List (String × List String)) (segment : String) :
    List (String × List String) :=
  match HiveParseKey segment with
  | some key => mapAppend m key.name key.value
  | none => m

/-- One path of the walk: every segment in order. -/
def hiveAccumPath (m : List (String × List String)) (path : String) :
    List (String × List String) :=
  (SplitAbstractPath path).foldl hiveAccumSegment m

/-- `HivePartitionSchemeDiscovery::Inspect`: walk every segment of every path
accumulating values per key, then infer the schema. -/
def HiveDiscoveryInspect (paths : List String) : Schema :=
  InferSchema (paths.foldl hiveAccumPath [])

lemma foldl_sortedKeys {α : Type}
    {f : List (String × List String) → α → List (String × List String)}
    (hf : ∀ m a, SortedKeys m → SortedKeys (f m a)) :
    ∀ (l : List α) (m), SortedKeys m → SortedKeys (l.foldl f m) := by
  intro l
  induction l with
  | nil => exact fun m h => h
  | cons a rest ih => exact fun m h => ih _ (hf m a h)

lemma hiveAccum_sorted (paths : List String) :
    SortedKeys (paths.foldl hiveAccumPath []) := by
  refine foldl_sortedKeys ?_ paths [] (by simp [SortedKeys])
  intro m path hm
  unfold hiveAccumPath
  refine foldl_sortedKeys ?_ _ m hm
  intro m' seg hm'
  unfold hiveAccumSegment
  cases HiveParseKey seg with
  | none => exact hm'
  | some key => exact (mapAppend_sorted hm').1

/-! ## C2: the field order of Hive discovery's Inspect -/

/-- Append a key to the first-seen order unless already seen. -/
def firstSeenInsert (l : List String) (k : String) : List String :=
  if k ∈ l then l else l ++ [k]

/-- Follows the claim's words, for comparison with the source-derived
`HiveDiscoveryInspect`: key names ordered by first occurrence while walking
the paths and their segments in input order. -/
def hiveFirstSeenKeyOrder (paths : List String) : List String :=
  ((paths.map SplitAbstractPath).flatten.filterMap
    (fun seg => (HiveParseKey seg).map Key.name)).foldl firstSeenInsert []

/-- C2 counterexample: for the corpus `["b=1/a=2"]`, Inspect's field order is
`["a", "b"]` — the accumulating map's ascending key order — while the
first-seen key order is `["b", "a"]`; the two differ, so Inspect's fields are
not in first-seen key order. -/
theorem hiveInspect_not_first_seen :
    (HiveDiscoveryInspect ["b=1/a=2"]).fields.map Field.name ≠
      hiveFirstSeenKeyOrder ["b=1/a=2"] ∧
    (HiveDiscoveryInspect ["b=1/a=2"]).fields.map Field.name = ["a", "b"] ∧
    hiveFirstSeenKeyOrder ["b=1/a=2"] = ["b", "a"] := by
  refine ⟨?_, ?_, ?_⟩ <;> decide

/-- C2 (amended): for every corpus of observed paths, Hive discovery's
Inspect returns a schema whose fields appear in strictly ascending
lexicographic key-name order — the iteration order of the accumulating
`std::map` — regardless of the order keys were first seen. -/
theorem hiveInspect_fields_sorted (paths : List String) :
    List.Chain' (fun f g => strLt f.name g.name = true)
      (HiveDiscoveryInspect paths).fields := by
  have hs := hiveAccum_sorted paths
  unfold HiveDiscoveryInspect InferSchema
  exact (List.chain'_map _).mpr hs

/-! ## C7 and C10: the digits-only type-inference heuristic -/

lemma allIntegral_iff {vs : List String} :
    AllIntegral vs = true ↔ ∀ v ∈ vs, v.data.all isDecimalDigit = true := by
  simp [AllIntegral]

lemma mem_inferSchema_of_mem {m : List (String × List String)} {k : String}
    {vs : List String} (hm : (k, vs) ∈ m) :
    (⟨k, if AllIntegral vs then DType.int32 else DType.utf8⟩ : Field) ∈
      (InferSchema m).fields :=
  List.mem_map_of_mem
    (fun p : String × List String =>
      (⟨p.1, if AllIntegral p.2 then DType.int32 else DType.utf8⟩ : Field)) hm

/-- C7: for a key of the accumulation map, the inferred field type is int32
when every accumulated value consists solely of the decimal digits 0-9, and
utf8 when some value has a character outside them. -/
theorem inferSchema_types (m : List (String × List String)) (k : String)
    (vs : List String) :
    (k, vs) ∈ m →
      ((∀ v ∈ vs, v.data.all isDecimalDigit = true) →
        (⟨k, DType.int32⟩ : Field) ∈ (InferSchema m).fields) ∧
      ((∃ v ∈ vs, ¬ v.data.all isDecimalDigit = true) →
        (⟨k, DType.utf8⟩ : Field) ∈ (InferSchema m).fields) := by
  intro hm
  have hmem := mem_inferSchema_of_mem hm
  constructor
  · intro hall
    have hint : AllIntegral vs = true := allIntegral_iff.mpr hall
    rw [hint] at hmem
    simpa using hmem
  · intro hex
    have hint : AllIntegral vs = false := by
      rcases hx : AllIntegral vs with _ | _
      · rfl
      · obtain ⟨v, hv, hnd⟩ := hex
        exact absurd (allIntegral_iff.mp hx v hv) hnd
    rw [hint] at hmem
    simpa using hmem

/-- Witness for C7 at the spec's examples: values `{"5","12","2020"}` infer
int32 and values `{"5","abc"}` infer utf8. -/
theorem inferSchema_types_witness :
    (⟨"year", DType.int32⟩ : Field) ∈
      (InferSchema [("name", ["5", "abc"]), ("year", ["5", "12", "2020"])]).fields ∧
    (⟨"name", DType.utf8⟩ : Field) ∈
      (InferSchema [("name", ["5", "abc"]), ("year", ["5", "12", "2020"])]).fields :=
  ⟨(inferSchema_types [("name", ["5", "abc"]), ("year", ["5", "12", "2020"])]
      "year" ["5", "12", "2020"] (by decide)).1 (by decide),
   (inferSchema_types [("name", ["5", "abc"]), ("year", ["5", "12", "2020"])]
      "name" ["5", "abc"] (by decide)).2 (by decide)⟩

/-- C10: the empty string passes the digits-only test, so a key all of whose
accumulated values are empty strings — as produced by Hive segments of the
form `"k="` — infers int32, not utf8. -/
theorem inferSchema_empty_values_int32 (m : List (String × List String))
    (k : String) (vs : List String) :
    (k, vs) ∈ m → (∀ v ∈ vs, v = "") →
      AllIntegral vs = true ∧
      (⟨k, DType.int32⟩ : Field) ∈ (InferSchema m).fields := by
  intro hm hall
  have hint : AllIntegral vs = true := by
    refine allIntegral_iff.mpr fun v hv => ?_
    rw [hall v hv]
    rfl
  refine ⟨hint, ?_⟩
  have hmem := mem_inferSchema_of_mem hm
  rw [hint] at hmem
  simpa using hmem

/-- Witness for C10 at the accumulation produced by the Hive segment `"k="`:
the single value is the empty string and int32 is inferred. -/
theorem inferSchema_empty_values_int32_witness :
    AllIntegral [""] = true ∧
    (⟨"k", DType.int32⟩ : Field) ∈ (InferSchema [("k", [""])]).fields :=
  inferSchema_empty_values_int32 [("k", [""])] "k" [""] (by decide) (by decide)

/-! ## C8: FileSource structural equality

`FileSource` is a tagged union of a path plus filesystem pointer and an
in-memory buffer, with a compression tag. Pointer identity of the filesystem
is modelled as equality of an identifier; buffer contents as a byte list. -/

inductive SourceType where
  | PATH
  | BUFFER
deriving DecidableEq

/-- The variant payload of a `FileSource`. -/
inductive FileSourceImpl where
  | pathFs (path : String) (filesystem : Nat)
  | buffer (bytes : List Nat)
deriving DecidableEq

structure FileSource where
  impl : FileSourceImpl
  compression : Nat
deriving DecidableEq

/-- `FileSource::type()`: the active variant. -/
def FileSource.srcType (s : FileSource) : SourceType :=
  match s.impl with
  | .pathFs .. => .PATH
  | .buffer _ => .BUFFER

/-- `FileSource::path()`: the path, or the sentinel for a buffer source. -/
def FileSource.pathStr (s : FileSource) : String :=
  match s.impl with
  | .pathFs p _ => p
  | .buffer _ => "<Buffer>"

/-- `FileSource::filesystem()`: the filesystem pointer, null for a buffer
source. -/
def FileSource.filesystem (s : FileSource) : Option Nat :=
  match s.impl with
  | .pathFs _ f => some f
  | .buffer _ => none

/-- `FileSource::buffer()`: the buffer, null for a path source. -/
def FileSource.bufferBytes (s : FileSource) : Option (List Nat) :=
  match s.impl with
  | .pathFs .. => none
  | .buffer b => some b

/-- `FileSource::operator==`: differing variants are unequal; two path
sources compare path string and filesystem pointer; two buffer sources
compare byte contents (`Buffer::Equals`). -/
def FileSource.beqFS (a b : FileSource) : Bool :=
  if a.srcType ≠ b.srcType then false
  else if a.srcType = .PATH then
    a.pathStr == b.pathStr && a.filesystem == b.filesystem
  else
    a.bufferBytes == b.bufferBytes

/-- C8: FileSource equality is structural — it holds exactly when both are
path sources with the same path string and identical filesystem reference, or
both are buffer sources with byte-equal contents; a path source never equals
a buffer source (and the compression tag never participates). -/
theorem fileSource_eq_structural (a b : FileSource) :
    FileSource.beqFS a b = true ↔
      ((∃ p f, a.impl = .pathFs p f ∧ b.impl = .pathFs p f) ∨
       (∃ bs, a.impl = .buffer bs ∧ b.impl = .buffer bs)) := by
  obtain ⟨ia, ca⟩ := a
  obtain ⟨ib, cb⟩ := b
  cases ia <;> cases ib
  all_goals simp [FileSource.beqFS, FileSource.srcType, FileSource.pathStr,
    FileSource.filesystem, FileSource.bufferBytes]
  all_goals aesop

/-! ## C9: fragment enumeration over the path forest

The body of `FileSystemDataSource::GetFragmentsImpl` is not among the
provided sources (only its declaration is); the enumeration below is modelled
from the spec's §4.4: walk the forest, AND-combine each node's partition
expression with its ancestors' and the source-level expression, and emit one
fragment per leaf (file) node whose accumulated predicate is not provably
unsatisfiable against the caller's scan predicate. -/

mutual
inductive FsNode where
  | file (path : String) (part : Expr)
  | dir (path : String) (part : Expr) (children : FsForest)
inductive FsForest where
  | nil
  | cons (hd : FsNode) (tl : FsForest)
end

/-- Whether the conjunct structure of `e` contains an equality on field `f`
with a value other than `v`. -/
def conflictingEq (f : String) (v : PScalar) : Expr → Bool
  | .eqE g w => decide (f = g) && !(decide (v = w))
  | .andE l r => conflictingEq f v l || conflictingEq f v r
  | _ => false

/-- Modelled from the spec: the conservative simplification of the scan
predicate under an assumed partition predicate used for pruning. A boolean
literal is its own simplification; an equality contradicted by an equality
conjunct of the assumed predicate simplifies to false; everything else is
conservatively left unsimplified (prune only when comparison is decidable,
never produce false negatives). -/
def assumeUnder (filter given : Expr) : Expr :=
  match filter with
  | .boolLit b => .boolLit b
  | .eqE f v => if conflictingEq f v given then .boolLit false else .eqE f v
  | .andE l r => .andE l r

/-- A fragment is pruned when the simplified scan predicate is provably
false. -/
def prunedUnder (filter given : Expr) : Bool :=
  decide (assumeUnder filter given = .boolLit false)

/-- A file-backed fragment: its source and its accumulated partition
predicate, carried for downstream pushdown. -/
structure Fragment where
  source : String
  partition : Expr
deriving DecidableEq

mutual
/-- Fragments contributed by one forest node: a file node is emitted unless
pruned; a directory node only extends the accumulated predicate of its
children and is never itself emitted. -/
def fragmentsOfNode (filter acc : Expr) : FsNode → List Fragment
  | .file p part =>
    if prunedUnder filter (Expr.andE acc part) then []
    else [⟨p, Expr.andE acc part⟩]
  | .dir _ part children => fragmentsOfForest filter (Expr.andE acc part) children
/-- Fragments contributed by a forest, in node order. -/
def fragmentsOfForest (filter acc : Expr) : FsForest → List Fragment
  | .nil => []
  | .cons n rest =>
    fragmentsOfNode filter acc n ++ fragmentsOfForest filter acc rest
end

mutual
/-- The paths of the leaf (file) nodes of a node's subtree, in order. -/
def fileSourcesNode : FsNode → List String
  | .file p _ => [p]
  | .dir _ _ children => fileSourcesForest children
/-- The paths of the leaf (file) nodes of a forest, in order. -/
def fileSourcesForest : FsForest → List String
  | .nil => []
  | .cons n rest => fileSourcesNode n ++ fileSourcesForest rest
end

/-- The data source: a forest plus the source-level partition expression. -/
structure FileSystemDataSource where
  forest : FsForest
  sourcePartition : Expr

/-- `FileSystemDataSource::GetFragmentsImpl(options)`: the fragments of the
forest under the scan predicate, the source-level expression seeding the
accumulated predicate. -/
def GetFragments (src : FileSystemDataSource) (scanFilter : Expr) :
    List Fragment :=
  fragmentsOfForest scanFilter src.sourcePartition src.forest

/-- The number of leaf (file) nodes of the source's forest. -/
def leafCount (src : FileSystemDataSource) : Nat :=
  (fileSourcesForest src.forest).length

mutual
lemma fragSources_sublist_node (filter acc : Expr) (t : FsNode) :
    ((fragmentsOfNode filter acc t).map Fragment.source).Sublist
      (fileSourcesNode t) :=
  match t with
  | .file p part => by
    rw [fragmentsOfNode, fileSourcesNode]
    rcases h : prunedUnder filter (Expr.andE acc part) with _ | _
    · simp
    · simp
  | .dir p part children => by
    rw [fragmentsOfNode, fileSourcesNode]
    exact fragSources_sublist_forest filter (Expr.andE acc part) children
lemma fragSources_sublist_forest (filter acc : Expr) (ts : FsForest) :
    ((fragmentsOfForest filter acc ts).map Fragment.source).Sublist
      (fileSourcesForest ts) :=
  match ts with
  | .nil => by simp [fragmentsOfForest, fileSourcesForest]
  | .cons n rest => by
    rw [fragmentsOfForest, fileSourcesForest, List.map_append]
    exact (fragSources_sublist_node filter acc n).append
      (fragSources_sublist_forest filter acc rest)
end

mutual
lemma fragSources_node_of_true (acc : Expr) (t : FsNode) :
    (fragmentsOfNode (.boolLit true) acc t).map Fragment.source =
      fileSourcesNode t :=
  match t with
  | .file p part => by
    rw [fragmentsOfNode, fileSourcesNode]
    simp [prunedUnder, assumeUnder]
  | .dir p part children => by
    rw [fragmentsOfNode, fileSourcesNode]
    exact fragSources_node_of_true_forest (Expr.andE acc part) children
lemma fragSources_node_of_true_forest (acc : Expr) (ts : FsForest) :
    (fragmentsOfForest (.boolLit true) acc ts).map Fragment.source =
      fileSourcesForest ts :=
  match ts with
  | .nil => by simp [fragmentsOfForest, fileSourcesForest]
  | .cons n rest => by
    rw [fragmentsOfForest, fileSourcesForest, List.map_append]
    rw [fragSources_node_of_true acc n,
      fragSources_node_of_true_forest acc rest]
end

/-- C9: the fragments emitted for a scan are file (leaf) nodes only — their
sources form a sublist of the forest's leaf sources — so their number never
exceeds the number of leaf nodes; and when the scan predicate is the
unconditionally satisfiable trivial true predicate, no pruning occurs and the
count equals the leaf count exactly. -/
theorem getFragments_leaf_bound (src : FileSystemDataSource) (filter : Expr) :
    ((GetFragments src filter).map Fragment.source).Sublist
      (fileSourcesForest src.forest) ∧
    (GetFragments src filter).length ≤ leafCount src ∧
    (filter = .boolLit true →
      (GetFragments src filter).length = leafCount src) := by
  have hsub := fragSources_sublist_forest filter src.sourcePartition src.forest
  refine ⟨hsub, ?_, ?_⟩
  · have := hsub.length_le
    simpa [GetFragments, leafCount] using this
  · rintro rfl
    have := fragSources_node_of_true_forest src.sourcePartition src.forest
    have hlen := congrArg List.length this
    simpa [GetFragments, leafCount] using hlen

/-- Witness for C9: a small source — one directory holding one file, next to
a second top-level file — scanned with the trivial true predicate. -/
theorem getFragments_leaf_bound_witness :
    (GetFragments
        ⟨.cons (.dir "d" trivialTrue (.cons (.file "d/x" trivialTrue) .nil))
            (.cons (.file "y" trivialTrue) .nil),
          trivialTrue⟩
        (.boolLit true)).length =
      leafCount
        ⟨.cons (.dir "d" trivialTrue (.cons (.file "d/x" trivialTrue) .nil))
            (.cons (.file "y" trivialTrue) .nil),
          trivialTrue⟩ :=
  (getFragments_leaf_bound
    ⟨.cons (.dir "d" trivialTrue (.cons (.file "d/x" trivialTrue) .nil))
        (.cons (.file "y" trivialTrue) .nil),
      trivialTrue⟩
    (.boolLit true)).2.2 rfl

end ArrowDS
